import Mathlib

/-!
Shallow embedding of `memory_benchmark_fixed.c` / `memory_benchmark_fixed.cpp`
(Memory-Access-Pattern-Benchmark-Suite).

The program allocates an array `arr` of `ARRAY_SIZE` 32-byte records and an
index array `indices` of `ARRAY_SIZE / 8` entries, fills `indices` with one of
five access patterns, and times a read-sum loop over `arr` driven by `indices`.

The `indices` array is modelled as a total function `ℕ → ℕ` (the C array is
`malloc`ed, so unwritten slots hold arbitrary junk: every definition is
parametric in the initial contents `f₀`).  Each generator is the fold of its
loop body over the loop counter range, writing slots by `Function.update`
exactly as the C loop stores into `indices[...]`.  The produced
`IndexSequence` is the read-out `(List.range L).map f` of the final array
contents.  C `double` timing samples are modelled as `ℚ` (only ordering and
field arithmetic of the samples matter to the claims); `uint64_t`
accumulation is modelled as `ℕ` addition reduced `% 2^64` at every step.
-/

namespace MemBench

/-- Source: `#define ARRAY_SIZE (4 * 1024 * 1024)`. -/
def ARRAY_SIZE : ℕ := 4 * 1024 * 1024

/-- Source: `#define NUM_ITERATIONS 10`. -/
def NUM_ITERATIONS : ℕ := 10

/-- Source: `#define WARMUP_ITERATIONS 3`. -/
def WARMUP_ITERATIONS : ℕ := 3

/-- The index-sequence length `ARRAY_SIZE / 8` (called `count` in the C
source, `indices.size()` in the C++ source). -/
def seqLen : ℕ := ARRAY_SIZE / 8

theorem seqLen_eq : seqLen = 524288 := by decide

theorem ARRAY_SIZE_eq : ARRAY_SIZE = 4194304 := by decide

/-- Source `generate_sequential_indices`: `for i in [0, L): indices[i] = i * 8`.
State-passing rendering of the loop on the `indices` array. -/
def generate_sequential_indices (L : ℕ) (f₀ : ℕ → ℕ) : ℕ → ℕ :=
  (List.range L).foldl (fun f i => Function.update f i (i * 8)) f₀

/-- Source `generate_backward_indices`: `for i in [0, L): indices[i] = (L - 1 - i) * 8`. -/
def generate_backward_indices (L : ℕ) (f₀ : ℕ → ℕ) : ℕ → ℕ :=
  (List.range L).foldl (fun f i => Function.update f i ((L - 1 - i) * 8)) f₀

/-- Source `generate_interleaved_indices`: `half = L / 2;`
`for i in [0, half): indices[2i] = i * 8; indices[2i+1] = (half + i) * 8`. -/
def generate_interleaved_indices (L : ℕ) (f₀ : ℕ → ℕ) : ℕ → ℕ :=
  (List.range (L / 2)).foldl
    (fun f i =>
      Function.update (Function.update f (2 * i) (i * 8)) (2 * i + 1) ((L / 2 + i) * 8)) f₀

/-- Source `generate_bouncing_indices`: for `i` in `[0, L)`,
`indices[i] = (i/2)*8` when `i` is even, else `(L - 1 - i/2) * 8`. -/
def generate_bouncing_indices (L : ℕ) (f₀ : ℕ → ℕ) : ℕ → ℕ :=
  (List.range L).foldl
    (fun f i =>
      Function.update f i (if i % 2 = 0 then (i / 2) * 8 else (L - 1 - i / 2) * 8)) f₀

/-- One iteration of the Fisher-Yates loop in `generate_random_indices`:
`j = rand() % (i + 1); temp = indices[i]; indices[i] = indices[j];`
`indices[j] = temp;`.  `rnd i` models the value returned by `rand()` at the
loop iteration for index `i` (a pure stream: both `rand()` after `srand` and
`std::mt19937{42}` are deterministic functions of the seed). -/
def fyStep (rnd : ℕ → ℕ) (f : ℕ → ℕ) (i : ℕ) : ℕ → ℕ :=
  Function.update (Function.update f i (f (rnd i % (i + 1)))) (rnd i % (i + 1)) (f i)

/-- Source `generate_random_indices`: first `generate_sequential_indices()`, then the
Fisher-Yates shuffle `for (i = L - 1; i > 0; i--)`. -/
def generate_random_indices (rnd : ℕ → ℕ) (L : ℕ) (f₀ : ℕ → ℕ) : ℕ → ℕ :=
  ((List.range' 1 (L - 1)).reverse).foldl (fyStep rnd)
    (generate_sequential_indices L f₀)

/-- The `IndexSequence` produced by a generator: the contents of the first `L`
slots of the `indices` array after the generator ran. -/
def readOut (L : ℕ) (f : ℕ → ℕ) : List ℕ :=
  (List.range L).map f

/-- The index list produced by `generate_sequential_indices`. -/
def sequentialList (L : ℕ) (f₀ : ℕ → ℕ) : List ℕ :=
  readOut L (generate_sequential_indices L f₀)

/-- The index list produced by `generate_backward_indices`. -/
def backwardList (L : ℕ) (f₀ : ℕ → ℕ) : List ℕ :=
  readOut L (generate_backward_indices L f₀)

/-- The index list produced by `generate_interleaved_indices`. -/
def interleavedList (L : ℕ) (f₀ : ℕ → ℕ) : List ℕ :=
  readOut L (generate_interleaved_indices L f₀)

/-- The index list produced by `generate_bouncing_indices`. -/
def bouncingList (L : ℕ) (f₀ : ℕ → ℕ) : List ℕ :=
  readOut L (generate_bouncing_indices L f₀)

/-- The index list produced by `generate_random_indices`. -/
def randomList (rnd : ℕ → ℕ) (L : ℕ) (f₀ : ℕ → ℕ) : List ℕ :=
  readOut L (generate_random_indices rnd L f₀)

/-- The fixed target set `{0, 8, 16, ..., 8*(L-1)}` as an ordered list (the
spec's `{0, 8, ..., N-8}` with `L = N/8`). -/
def canonicalOffsets (L : ℕ) : List ℕ :=
  (List.range L).map (· * 8)

/-- Swap of two positions of a list, as written in the spec's description of
Fisher-Yates ("swap positions i and j"); out-of-range reads default to 0 as
they never occur at the call sites proved below. -/
def listSwap (l : List ℕ) (i j : ℕ) : List ℕ :=
  (l.set i (l.getD j 0)).set j (l.getD i 0)

/-- Modelled from the spec: "start from the Sequential sequence, then apply a
Fisher-Yates shuffle (for i from L-1 down to 1, pick j uniformly in [0,i],
swap positions i and j) using a fixed-seed generator" — the shuffle part,
acting directly on the index list. -/
def listFisherYates (rnd : ℕ → ℕ) (l : List ℕ) : List ℕ :=
  ((List.range' 1 (l.length - 1)).reverse).foldl
    (fun m i => listSwap m i (rnd i % (i + 1))) l

/-! ### The median computation of `benchmark_pattern`

`double` timing samples are modelled as `ℚ`.  The C implementation sorts the
10-element `times` array with a bubble sort
(`for i in [0, n-1): for j in [0, n-i-1): if (times[j] > times[j+1]) swap`)
and returns `times[NUM_ITERATIONS / 2]`; the C++ implementation uses
`std::sort` and the same index. -/

/-- One inner-loop sweep of the bubble sort, with `m` comparisons left:
at each step the current adjacent pair is swapped when out of order
(`times[j] > times[j+1]`) and the loop advances to the next position. -/
def sweep : ℕ → List ℚ → List ℚ
  | 0, l => l
  | _ + 1, [] => []
  | _ + 1, [a] => [a]
  | m + 1, a :: b :: rest =>
    if a > b then b :: sweep m (a :: rest) else a :: sweep m (b :: rest)

/-- The outer bubble-sort loop: `k` counts the remaining passes, the pass for
outer counter `i` performing `n - i - 1` comparisons (so the passes use
bounds `k, k-1, ..., 1`). -/
def bubbleOuterLoop : ℕ → List ℚ → List ℚ
  | 0, l => l
  | k + 1, l => bubbleOuterLoop k (sweep (k + 1) l)

/-- The bubble sort of `benchmark_pattern`:
`for i in [0, n-1): for j in [0, n-i-1): if (times[j] > times[j+1]) swap`. -/
def bubbleSortTimes (l : List ℚ) : List ℚ :=
  bubbleOuterLoop (l.length - 1) l

/-- Source: `median_time = times[NUM_ITERATIONS / 2]` after sorting `times`. -/
def medianOfTimes (l : List ℚ) : ℚ :=
  (bubbleSortTimes l).getD (NUM_ITERATIONS / 2) 0

/-! ### The read-sum accumulator -/

/-- The value `2 ^ 64`: the modulus of `uint64_t` arithmetic. -/
def UINT64_MOD : ℕ := 2 ^ 64

/-- The read-sum loop of `benchmark_pattern`:
`volatile uint64_t sum = 0; for j in [0, count): sum += arr[indices[j]].a;`.
`arrA k` models the 32-bit field `arr[k].a`; the `uint64_t` addition wraps
modulo `2 ^ 64` at every iteration. -/
def readSumLoop (arrA : ℕ → ℕ) (idx : List ℕ) : ℕ :=
  idx.foldl (fun s j => (s + arrA j) % UINT64_MOD) 0

/-- Modelled from the spec: "an independently computed reference sum" of
"field `a` over the Sequential index sequence", i.e. of every 8th record's
field `a`. -/
def referenceSum (arrA : ℕ → ℕ) (L : ℕ) : ℕ :=
  ((List.range L).map (fun i => arrA (i * 8))).sum

/-! ### The timer -/

/-- The POSIX `struct timeval` filled in by `gettimeofday`. -/
structure Timeval where
  tv_sec : ℕ
  tv_usec : ℕ

/-- The non-Windows branch of `get_time`:
`gettimeofday(&tv, NULL); return tv.tv_sec + tv.tv_usec * 1e-6;`.
`wallClock n` is the `timeval` the kernel reports at the `n`-th call.
`gettimeofday` reads calendar (wall-clock) time, so the reported values may
step backward when the clock is adjusted; the embedding therefore quantifies
over all call-indexed `timeval` streams. -/
def get_time (wallClock : ℕ → Timeval) (call : ℕ) : ℚ :=
  (wallClock call).tv_sec + (wallClock call).tv_usec * (1 / 1000000)

/-- A wall clock that is stepped backward between call 0 and call 1 (as
`settimeofday`/NTP may do to the calendar clock read by `gettimeofday`). -/
def adjustedClock : ℕ → Timeval :=
  fun call => if call = 0 then ⟨5, 0⟩ else ⟨3, 0⟩

/-- A well-behaved wall clock that advances one second per call. -/
def steadyClock : ℕ → Timeval :=
  fun call => ⟨call, 0⟩

/-! ### `main` and the benchmark driver -/

/-- The observable outcome of `main` as far as control flow is concerned. -/
structure MainResult where
  exitCode : ℕ
  stderrLines : List String
  benchmarksRun : List String

/-- Control flow of `main`: `arr` and `indices` are `malloc`ed; on
`if (!arr || !indices)` the message `Memory allocation failed` goes to
`stderr` and `main` returns 1 running no benchmark; otherwise the five
benchmarks run in their fixed order and `main` returns 0.  The two `Bool`s
model whether each of the two allocations succeeded. -/
def mainModel (arrAlloc idxAlloc : Bool) : MainResult :=
  if !arrAlloc || !idxAlloc then
    { exitCode := 1
      stderrLines := ["Memory allocation failed"]
      benchmarksRun := [] }
  else
    { exitCode := 0
      stderrLines := []
      benchmarksRun := ["Sequential", "Backward", "Interleaved", "Bouncing", "Random"] }

/-- The 8-field 32-bit record type of the data buffer. -/
structure DataStruct where
  a : ℕ
  b : ℕ
  c : ℕ
  d : ℕ
  e : ℕ
  f : ℕ
  g : ℕ
  h : ℕ

/-- Initialization of `arr` in `main`: after `srand(12345)`, record `i`'s
eight fields receive the next eight values of the seeded `rand()` stream, row
by row (`rnd t` is the `t`-th value of the stream). -/
def initArr (rnd : ℕ → ℕ) : ℕ → DataStruct := fun i =>
  { a := rnd (8 * i)
    b := rnd (8 * i + 1)
    c := rnd (8 * i + 2)
    d := rnd (8 * i + 3)
    e := rnd (8 * i + 4)
    f := rnd (8 * i + 5)
    g := rnd (8 * i + 6)
    h := rnd (8 * i + 7) }

/-- The mutable program state: the data buffer and the index array. -/
structure BenchState where
  arr : ℕ → DataStruct
  indices : ℕ → ℕ

/-- One full read pass `for j in [0, count): sum += arr[indices[j]].a`. -/
def readPass (st : BenchState) : ℕ :=
  readSumLoop (fun k => (st.arr k).a) (readOut seqLen st.indices)

/-- The observable outcome of one `benchmark_pattern` call. -/
structure BenchCall where
  state : BenchState
  passSums : List ℕ
  times : List ℚ
  median : ℚ

/-- Source `benchmark_pattern`: runs the generator on the index array, then
`WARMUP_ITERATIONS` untimed passes and `NUM_ITERATIONS` timed passes of the
read-sum loop over the buffer (each pass only reads `arr`; its sum goes into
the local `volatile` accumulator, recorded here as an observable output), and
reduces the timed samples (`(end - start) * 1000` from consecutive clock
readings) to their median. -/
def benchmark_pattern (gen : (ℕ → ℕ) → ℕ → ℕ) (clock : ℕ → ℚ) (st : BenchState) :
    BenchCall :=
  let st1 : BenchState := { st with indices := gen st.indices }
  let warmupSums := (List.range WARMUP_ITERATIONS).map (fun _ => readPass st1)
  let timedSums := (List.range NUM_ITERATIONS).map (fun _ => readPass st1)
  let times := (List.range NUM_ITERATIONS).map
    (fun i => (clock (2 * i + 1) - clock (2 * i)) * 1000)
  { state := st1
    passSums := warmupSums ++ timedSums
    times := times
    median := medianOfTimes times }

/-- The five `benchmark_pattern` calls of `main`, in program order, returning
the final program state. -/
def runAllPatterns (rnd : ℕ → ℕ) (clock : ℕ → ℚ) (st : BenchState) : BenchState :=
  let c1 := benchmark_pattern (generate_sequential_indices seqLen) clock st
  let c2 := benchmark_pattern (generate_backward_indices seqLen) clock c1.state
  let c3 := benchmark_pattern (generate_interleaved_indices seqLen) clock c2.state
  let c4 := benchmark_pattern (generate_bouncing_indices seqLen) clock c3.state
  let c5 := benchmark_pattern (generate_random_indices rnd seqLen) clock c4.state
  c5.state

/-- The property the spec asserts of every generated `IndexSequence` at the
program's fixed constants: length `N/8 = 524288`, a permutation of
`{0, 8, ..., N-8}`, all values distinct, every value a multiple of 8 and
below `N = 4194304`. -/
def isCanonicalPerm (l : List ℕ) : Prop :=
  l.length = 524288 ∧ l.Perm (canonicalOffsets seqLen) ∧ l.Nodup ∧
    ∀ v ∈ l, 8 ∣ v ∧ v < ARRAY_SIZE

/-! ### Generic lemmas about the loop folds -/

/-- A loop `for i in [0, m): a[i] := g i` leaves slot `k < m` holding `g k`. -/
theorem foldl_update_eval (g : ℕ → ℕ) :
    ∀ (m : ℕ) (f₀ : ℕ → ℕ) (k : ℕ), k < m →
      ((List.range m).foldl (fun f i => Function.update f i (g i)) f₀) k = g k := by
  intro m
  induction m with
  | zero => intro f₀ k hk; exact absurd hk (Nat.not_lt_zero k)
  | succ n ih =>
    intro f₀ k hk
    rw [List.range_succ, List.foldl_append, List.foldl_cons, List.foldl_nil]
    rcases eq_or_ne k n with rfl | hkn
    · rw [Function.update_same]
    · rw [Function.update_noteq hkn]
      exact ih f₀ k (by omega)

/-- A loop `for i in [0, m): a[2i] := g₁ i; a[2i+1] := g₂ i` leaves slot
`k < 2m` holding `g₁ (k/2)` (`k` even) or `g₂ (k/2)` (`k` odd). -/
theorem foldl_update2_eval (g₁ g₂ : ℕ → ℕ) :
    ∀ (m : ℕ) (f₀ : ℕ → ℕ) (k : ℕ), k < 2 * m →
      ((List.range m).foldl
          (fun f i =>
            Function.update (Function.update f (2 * i) (g₁ i)) (2 * i + 1) (g₂ i)) f₀) k
        = if k % 2 = 0 then g₁ (k / 2) else g₂ (k / 2) := by
  intro m
  induction m with
  | zero => intro f₀ k hk; exact absurd hk (by omega)
  | succ n ih =>
    intro f₀ k hk
    rw [List.range_succ, List.foldl_append, List.foldl_cons, List.foldl_nil]
    rcases eq_or_ne k (2 * n + 1) with rfl | hk1
    · rw [Function.update_same, if_neg (by omega)]
      congr 1
      omega
    · rw [Function.update_noteq hk1]
      rcases eq_or_ne k (2 * n) with rfl | hk0
      · rw [Function.update_same, if_pos (by omega)]
        congr 1
        omega
      · rw [Function.update_noteq hk0]
        exact ih f₀ k (by omega)

/-- Reading slot `k < L` of the read-out list. -/
theorem readOut_getD (L : ℕ) (f : ℕ → ℕ) (k : ℕ) (hk : k < L) :
    (readOut L f).getD k 0 = f k := by
  unfold readOut
  rw [List.getD_eq_getElem _ _ (by simpa using hk)]
  simp

theorem readOut_getElem (L : ℕ) (f : ℕ → ℕ) (k : ℕ)
    (hk : k < (readOut L f).length) : (readOut L f)[k] = f k := by
  simp [readOut]

/-- The sequential list is pointwise `i * 8`: it coincides with the canonical
offset list. -/
theorem sequentialList_eq_canonical (L : ℕ) (f₀ : ℕ → ℕ) :
    sequentialList L f₀ = canonicalOffsets L := by
  unfold sequentialList readOut canonicalOffsets generate_sequential_indices
  exact List.map_congr_left fun k hk =>
    foldl_update_eval _ L f₀ k (List.mem_range.mp hk)

/-- The backward list is pointwise `(L - 1 - i) * 8`. -/
theorem backwardList_eq_map (L : ℕ) (f₀ : ℕ → ℕ) :
    backwardList L f₀ = (List.range L).map (fun i => (L - 1 - i) * 8) := by
  unfold backwardList readOut generate_backward_indices
  exact List.map_congr_left fun k hk =>
    foldl_update_eval _ L f₀ k (List.mem_range.mp hk)

/-- The bouncing list is pointwise given by the even/odd formula. -/
theorem bouncingList_eq_map (L : ℕ) (f₀ : ℕ → ℕ) :
    bouncingList L f₀ =
      (List.range L).map
        (fun k => if k % 2 = 0 then (k / 2) * 8 else (L - 1 - k / 2) * 8) := by
  unfold bouncingList readOut generate_bouncing_indices
  exact List.map_congr_left fun k hk =>
    foldl_update_eval _ L f₀ k (List.mem_range.mp hk)

/-- For even `L`, the interleaved list is pointwise given by the even/odd
formula. -/
theorem interleavedList_eq_map (L : ℕ) (f₀ : ℕ → ℕ) (hL : 2 ∣ L) :
    interleavedList L f₀ =
      (List.range L).map
        (fun k => if k % 2 = 0 then (k / 2) * 8 else (L / 2 + k / 2) * 8) := by
  unfold interleavedList readOut generate_interleaved_indices
  refine List.map_congr_left fun k hk => ?_
  have hk' : k < 2 * (L / 2) := by
    have := List.mem_range.mp hk
    omega
  exact foldl_update2_eval _ _ (L / 2) f₀ k hk'

/-! ### Permutation of the canonical offset set -/

theorem canonicalOffsets_nodup (L : ℕ) : (canonicalOffsets L).Nodup :=
  (List.nodup_range L).map_on fun x _ y _ h => by omega

theorem mem_canonicalOffsets (L v : ℕ) :
    v ∈ canonicalOffsets L ↔ ∃ m, m < L ∧ m * 8 = v := by
  unfold canonicalOffsets
  simp only [List.mem_map, List.mem_range]

/-- A list of the form `map g (range L)` is a permutation of the canonical
offsets when `g` is injective below `L` and hits exactly the multiples of 8
below `8 * L`. -/
theorem perm_canonical_of_map (g : ℕ → ℕ) (L : ℕ)
    (hinj : ∀ x, x < L → ∀ y, y < L → g x = g y → x = y)
    (hmem : ∀ v, (∃ k, k < L ∧ g k = v) ↔ ∃ m, m < L ∧ m * 8 = v) :
    ((List.range L).map g).Perm (canonicalOffsets L) := by
  have h₁ : ((List.range L).map g).Nodup :=
    (List.nodup_range L).map_on fun x hx y hy h =>
      hinj x (List.mem_range.mp hx) y (List.mem_range.mp hy) h
  rw [List.perm_ext_iff_of_nodup h₁ (canonicalOffsets_nodup L)]
  intro v
  rw [mem_canonicalOffsets]
  simp only [List.mem_map, List.mem_range]
  constructor
  · rintro ⟨k, hk, rfl⟩; exact (hmem (g k)).mp ⟨k, hk, rfl⟩
  · rintro ⟨m, hm, rfl⟩
    obtain ⟨k, hk, hgk⟩ := (hmem (m * 8)).mpr ⟨m, hm, rfl⟩
    exact ⟨k, hk, hgk⟩

theorem sequentialList_perm (L : ℕ) (f₀ : ℕ → ℕ) :
    (sequentialList L f₀).Perm (canonicalOffsets L) := by
  rw [sequentialList_eq_canonical]

theorem range_reverse_eq_map (L : ℕ) :
    (List.range L).reverse = (List.range L).map (fun i => L - 1 - i) := by
  conv_lhs => rw [List.range_eq_range']
  rw [List.reverse_range']
  exact List.map_congr_left fun k _ => by omega

theorem backwardList_eq_reverse (L : ℕ) (f₀ : ℕ → ℕ) :
    backwardList L f₀ = (sequentialList L f₀).reverse := by
  rw [backwardList_eq_map, sequentialList_eq_canonical]
  unfold canonicalOffsets
  rw [← List.map_reverse, range_reverse_eq_map, List.map_map]
  rfl

theorem backwardList_perm (L : ℕ) (f₀ : ℕ → ℕ) :
    (backwardList L f₀).Perm (canonicalOffsets L) := by
  rw [backwardList_eq_reverse]
  exact (sequentialList L f₀).reverse_perm.trans (sequentialList_perm L f₀)

theorem interleavedList_perm (L : ℕ) (f₀ : ℕ → ℕ) (hL : 2 ∣ L) :
    (interleavedList L f₀).Perm (canonicalOffsets L) := by
  rw [interleavedList_eq_map L f₀ hL]
  refine perm_canonical_of_map _ L ?_ ?_
  · intro x hx y hy h
    rcases Nat.even_or_odd x with hxe | hxo <;> rcases Nat.even_or_odd y with hye | hyo <;>
      · simp only [Nat.even_iff, Nat.odd_iff] at *
        rw [show x % 2 = x % 2 from rfl] at h
        split_ifs at h <;> omega
  · intro v
    constructor
    · rintro ⟨k, hk, rfl⟩
      by_cases hke : k % 2 = 0
      · exact ⟨k / 2, by omega, by rw [if_pos hke]⟩
      · exact ⟨L / 2 + k / 2, by omega, by rw [if_neg hke]⟩
    · rintro ⟨m, hm, rfl⟩
      by_cases hmh : m < L / 2
      · refine ⟨2 * m, by omega, ?_⟩
        rw [if_pos (by omega)]
        congr 1
        omega
      · refine ⟨2 * (m - L / 2) + 1, by omega, ?_⟩
        rw [if_neg (by omega)]
        congr 1
        omega

theorem bouncingList_perm (L : ℕ) (f₀ : ℕ → ℕ) (hL : 2 ∣ L) :
    (bouncingList L f₀).Perm (canonicalOffsets L) := by
  rw [bouncingList_eq_map L f₀]
  refine perm_canonical_of_map _ L ?_ ?_
  · intro x hx y hy h
    split_ifs at h <;> omega
  · intro v
    constructor
    · rintro ⟨k, hk, rfl⟩
      by_cases hke : k % 2 = 0
      · exact ⟨k / 2, by omega, by rw [if_pos hke]⟩
      · exact ⟨L - 1 - k / 2, by omega, by rw [if_neg hke]⟩
    · rintro ⟨m, hm, rfl⟩
      by_cases hmh : m < L / 2
      · refine ⟨2 * m, by omega, ?_⟩
        rw [if_pos (by omega)]
        congr 1
        omega
      · refine ⟨2 * (L - 1 - m) + 1, by omega, ?_⟩
        rw [if_neg (by omega)]
        congr 1
        omega

/-! ### The Fisher-Yates shuffle -/

/-- The double `Function.update` performed by one swap is precomposition of
the array contents with the transposition of the two slots. -/
theorem update_update_eq_comp_swap (f : ℕ → ℕ) (i j : ℕ) :
    Function.update (Function.update f i (f j)) j (f i) = f ∘ (Equiv.swap i j) := by
  funext k
  rcases eq_or_ne k j with rfl | hkj
  · rw [Function.update_same, Function.comp_apply, Equiv.swap_apply_right]
  · rw [Function.update_noteq hkj, Function.comp_apply]
    rcases eq_or_ne k i with rfl | hki
    · rw [Function.update_same, Equiv.swap_apply_left]
    · rw [Function.update_noteq hki, Equiv.swap_apply_of_ne_of_ne hki hkj]

/-- A transposition of two slots below `L` permutes `List.range L`. -/
theorem map_swap_range_perm (i j L : ℕ) (hi : i < L) (hj : j < L) :
    ((List.range L).map (Equiv.swap i j)).Perm (List.range L) := by
  have hswap : ∀ x, x < L → Equiv.swap i j x < L := by
    intro x hx
    rw [Equiv.swap_apply_def]
    split_ifs <;> assumption
  rw [List.perm_ext_iff_of_nodup
    ((List.nodup_range L).map (Equiv.swap i j).injective) (List.nodup_range L)]
  intro v
  simp only [List.mem_map, List.mem_range]
  constructor
  · rintro ⟨y, hy, rfl⟩
    exact hswap y hy
  · intro hv
    refine ⟨Equiv.swap i j v, hswap v hv, ?_⟩
    exact Equiv.swap_apply_self i j v

/-- One `fyStep` with both slots below `L` preserves the read-out list up to
permutation. -/
theorem fyStep_readOut_perm (rnd : ℕ → ℕ) (f : ℕ → ℕ) (i : ℕ) (L : ℕ)
    (hi : i < L) :
    (readOut L (fyStep rnd f i)).Perm (readOut L f) := by
  have hj : rnd i % (i + 1) < L := lt_of_lt_of_le (Nat.mod_lt _ (by omega)) hi
  unfold fyStep readOut
  rw [update_update_eq_comp_swap, ← List.map_map]
  exact (map_swap_range_perm i (rnd i % (i + 1)) L hi hj).map f

/-- Folding `fyStep` over any list of loop indices below `L` preserves the
read-out list up to permutation. -/
theorem foldl_fyStep_perm (rnd : ℕ → ℕ) (L : ℕ) :
    ∀ (is : List ℕ), (∀ i ∈ is, i < L) → ∀ f : ℕ → ℕ,
      (readOut L (is.foldl (fyStep rnd) f)).Perm (readOut L f) := by
  intro is
  induction is with
  | nil => intro _ f; exact List.Perm.refl _
  | cons i t ih =>
    intro hmem f
    rw [List.foldl_cons]
    exact (ih (fun x hx => hmem x (List.mem_cons_of_mem i hx)) (fyStep rnd f i)).trans
      (fyStep_readOut_perm rnd f i L (hmem i (List.mem_cons_self i t)))

theorem randomList_perm (rnd : ℕ → ℕ) (L : ℕ) (f₀ : ℕ → ℕ) :
    (randomList rnd L f₀).Perm (canonicalOffsets L) := by
  unfold randomList generate_random_indices
  refine (foldl_fyStep_perm rnd L _ ?_ _).trans (sequentialList_perm L f₀)
  intro i hi
  rw [List.mem_reverse, List.mem_range'_1] at hi
  omega

/-- One in-place swap step commutes with reading out the array. -/
theorem readOut_fyStep_eq_listSwap (rnd : ℕ → ℕ) (f : ℕ → ℕ) (i L : ℕ)
    (hi : i < L) :
    readOut L (fyStep rnd f i) = listSwap (readOut L f) i (rnd i % (i + 1)) := by
  have hj : rnd i % (i + 1) < L := lt_of_lt_of_le (Nat.mod_lt _ (by omega)) hi
  have hlen : ∀ l' : List ℕ, l'.length = L → (listSwap l' i (rnd i % (i + 1))).length = L := by
    intro l' h
    unfold listSwap
    simp [h]
  have hL : (readOut L f).length = L := by simp [readOut]
  apply List.ext_getElem
  · simp [readOut, listSwap]
  · intro k hk₁ hk₂
    have hkL : k < L := by simpa [readOut] using hk₁
    unfold listSwap
    rw [List.getElem_set, List.getElem_set]
    simp only [readOut_getD L f i hi, readOut_getD L f _ hj]
    simp only [readOut, List.getElem_map, List.getElem_range]
    unfold fyStep
    rcases eq_or_ne (rnd i % (i + 1)) k with hjk | hjk
    · rw [if_pos hjk, hjk, Function.update_same]
    · rw [if_neg hjk, Function.update_noteq (Ne.symm hjk)]
      rcases eq_or_ne i k with hik | hik
      · rw [if_pos hik, hik, Function.update_same]
      · rw [if_neg hik, Function.update_noteq (Ne.symm hik)]

/-- Reading out the array commutes with the whole Fisher-Yates fold. -/
theorem foldl_fyStep_eq_listFold (rnd : ℕ → ℕ) (L : ℕ) :
    ∀ (is : List ℕ), (∀ i ∈ is, i < L) → ∀ f : ℕ → ℕ,
      readOut L (is.foldl (fyStep rnd) f)
        = is.foldl (fun m i => listSwap m i (rnd i % (i + 1))) (readOut L f) := by
  intro is
  induction is with
  | nil => intro _ f; rfl
  | cons i t ih =>
    intro hmem f
    rw [List.foldl_cons, List.foldl_cons,
      ih (fun x hx => hmem x (List.mem_cons_of_mem i hx)) (fyStep rnd f i),
      readOut_fyStep_eq_listSwap rnd f i L (hmem i (List.mem_cons_self i t))]

theorem sequentialList_length (L : ℕ) (f₀ : ℕ → ℕ) :
    (sequentialList L f₀).length = L := by
  simp [sequentialList, readOut]

/-- The code's random generator is exactly the spec's list-level Fisher-Yates
shuffle applied to the sequential index list. -/
theorem randomList_eq_listFisherYates (rnd : ℕ → ℕ) (L : ℕ) (f₀ : ℕ → ℕ) :
    randomList rnd L f₀ = listFisherYates rnd (sequentialList L f₀) := by
  unfold randomList generate_random_indices listFisherYates
  rw [sequentialList_length]
  refine foldl_fyStep_eq_listFold rnd L _ ?_ _
  intro i hi
  rw [List.mem_reverse, List.mem_range'_1] at hi
  omega

theorem sweep_perm : ∀ (m : ℕ) (l : List ℚ), (sweep m l).Perm l := by
  intro m
  induction m with
  | zero => intro l; rw [sweep]
  | succ n ih =>
    intro l
    match l with
    | [] => rw [sweep]
    | [a] => rw [sweep]
    | a :: b :: rest =>
      rw [sweep]
      split
      · exact ((ih (a :: rest)).cons b).trans (List.Perm.swap a b rest)
      · exact (ih (b :: rest)).cons a

theorem sweep_length (m : ℕ) (l : List ℚ) : (sweep m l).length = l.length :=
  (sweep_perm m l).length_eq

/-- A sweep only touches the first `m + 1` elements. -/
theorem sweep_take_drop : ∀ (m : ℕ) (l : List ℚ),
    sweep m l = sweep m (l.take (m + 1)) ++ l.drop (m + 1) := by
  intro m
  induction m with
  | zero =>
    intro l
    rw [sweep, sweep, List.take_append_drop]
  | succ n ih =>
    intro l
    match l with
    | [] => simp [sweep]
    | [a] => simp [sweep]
    | a :: b :: rest =>
      rw [show (a :: b :: rest).take (n + 2) = a :: b :: rest.take n by simp,
        show (a :: b :: rest).drop (n + 2) = rest.drop n by simp]
      rw [sweep, sweep]
      split
      · rw [List.cons_append]
        congr 1
        rw [ih (a :: rest)]
        simp
      · rw [List.cons_append]
        congr 1
        rw [ih (b :: rest)]
        simp

/-- A full sweep (bound at least the list length) moves a maximum of the list
into the last position. -/
theorem sweep_max : ∀ (l : List ℚ) (m : ℕ) (a : ℚ), l.length ≤ m →
    ∃ l' M, sweep m (a :: l) = l' ++ [M] ∧ ∀ x ∈ a :: l, x ≤ M := by
  intro l
  induction l with
  | nil =>
    intro m a _
    refine ⟨[], a, ?_, ?_⟩
    · match m with
      | 0 => rw [sweep]; rfl
      | k + 1 => rw [sweep]; rfl
    · intro x hx
      rw [List.mem_singleton] at hx
      exact le_of_eq hx
  | cons b t ih =>
    intro m a hm
    match m, hm with
    | k + 1, hm =>
      rw [sweep]
      split
      · rename_i hab
        obtain ⟨l', M, heq, hmax⟩ := ih k a (by simpa using hm)
        refine ⟨b :: l', M, by rw [heq, List.cons_append], ?_⟩
        intro x hx
        rcases List.mem_cons.mp hx with rfl | hx'
        · exact hmax x (List.mem_cons_self x t)
        · rcases List.mem_cons.mp hx' with rfl | hx''
          · exact le_trans (le_of_lt hab) (hmax a (List.mem_cons_self a t))
          · exact hmax x (List.mem_cons_of_mem a hx'')
      · rename_i hab
        obtain ⟨l', M, heq, hmax⟩ := ih k b (by simpa using hm)
        refine ⟨a :: l', M, by rw [heq, List.cons_append], ?_⟩
        intro x hx
        rcases List.mem_cons.mp hx with rfl | hx'
        · exact le_trans (le_of_not_gt hab) (hmax b (List.mem_cons_self b t))
        · exact hmax x hx'

/-- Version of `sweep_max` for an arbitrary nonempty list. -/
theorem sweep_max_of_ne_nil (l : List ℚ) (m : ℕ) (hne : l ≠ []) (hm : l.length ≤ m + 1) :
    ∃ l' M, sweep m l = l' ++ [M] ∧ ∀ x ∈ l, x ≤ M := by
  match l, hne with
  | a :: t, _ => exact sweep_max t m a (by simpa using hm)

theorem bubbleOuterLoop_perm : ∀ (k : ℕ) (l : List ℚ), (bubbleOuterLoop k l).Perm l := by
  intro k
  induction k with
  | zero => intro l; rw [bubbleOuterLoop]
  | succ n ih =>
    intro l
    rw [bubbleOuterLoop]
    exact (ih (sweep (n + 1) l)).trans (sweep_perm (n + 1) l)

/-- The bubble-sort outer-loop invariant: if everything after position `k`
is already sorted and dominates everything up to position `k`, the remaining
`k` passes sort the whole list. -/
theorem bubbleOuterLoop_sorted : ∀ (k : ℕ) (l : List ℚ),
    List.Sorted (· ≤ ·) (l.drop (k + 1)) →
    (∀ x ∈ l.take (k + 1), ∀ y ∈ l.drop (k + 1), x ≤ y) →
    List.Sorted (· ≤ ·) (bubbleOuterLoop k l) := by
  intro k
  induction k with
  | zero =>
    intro l hsorted hcross
    rw [bubbleOuterLoop]
    match l with
    | [] => exact List.sorted_nil
    | a :: t =>
      rw [List.sorted_cons]
      refine ⟨fun b hb => hcross a ?_ b ?_, ?_⟩
      · simp
      · simpa using hb
      · simpa using hsorted
  | succ n ih =>
    intro l hsorted hcross
    rw [bubbleOuterLoop]
    rcases Nat.lt_or_ge (n + 1) l.length with hlen | hlen
    · -- the interesting case: position n + 1 still exists in the list
      have htk_ne : l.take (n + 2) ≠ [] := by
        have : (l.take (n + 2)).length = n + 2 := by
          rw [List.length_take]
          omega
        intro h
        rw [h] at this
        simp at this
      obtain ⟨l', M, heq, hmax⟩ :=
        sweep_max_of_ne_nil (l.take (n + 2)) (n + 1) htk_ne
          (by rw [List.length_take]; omega)
      have hl'_len : l'.length = n + 1 := by
        have h1 : (sweep (n + 1) (l.take (n + 2))).length = n + 2 := by
          rw [sweep_length, List.length_take]
          omega
        rw [heq] at h1
        simp at h1
        omega
      have hsplit : sweep (n + 1) l = l' ++ (M :: l.drop (n + 2)) := by
        rw [sweep_take_drop (n + 1) l, heq, List.append_assoc]
        rfl
      have hM_mem : M ∈ l.take (n + 2) := by
        have : M ∈ sweep (n + 1) (l.take (n + 2)) := by
          rw [heq]
          simp
        exact (sweep_perm (n + 1) (l.take (n + 2))).mem_iff.mp this
      refine ih (sweep (n + 1) l) ?_ ?_
      · rw [hsplit, List.drop_left' hl'_len, List.sorted_cons]
        exact ⟨fun y hy => hcross M hM_mem y hy, hsorted⟩
      · intro x hx y hy
        rw [hsplit, List.take_left' hl'_len] at hx
        rw [hsplit, List.drop_left' hl'_len] at hy
        have hx_tk : x ∈ l.take (n + 2) := by
          refine (sweep_perm (n + 1) (l.take (n + 2))).mem_iff.mp ?_
          rw [heq, List.mem_append]
          exact Or.inl hx
        rcases List.mem_cons.mp hy with rfl | hy'
        · exact hmax x hx_tk
        · exact hcross x hx_tk y hy'
    · -- degenerate case: the suffix conditions for the next pass are vacuous
      have hdrop : (sweep (n + 1) l).drop (n + 1) = [] := by
        apply List.drop_eq_nil_of_le
        rw [sweep_length]
        omega
      refine ih (sweep (n + 1) l) ?_ ?_
      · rw [hdrop]
        exact List.sorted_nil
      · intro x _ y hy
        rw [hdrop] at hy
        exact absurd hy (List.not_mem_nil y)

theorem bubbleSortTimes_perm (l : List ℚ) : (bubbleSortTimes l).Perm l :=
  bubbleOuterLoop_perm (l.length - 1) l

theorem bubbleSortTimes_sorted (l : List ℚ) :
    List.Sorted (· ≤ ·) (bubbleSortTimes l) := by
  unfold bubbleSortTimes
  refine bubbleOuterLoop_sorted (l.length - 1) l ?_ ?_
  · rw [List.drop_eq_nil_of_le (by omega)]
    exact List.sorted_nil
  · intro x _ y hy
    rw [List.drop_eq_nil_of_le (by omega)] at hy
    exact absurd hy (List.not_mem_nil y)

/-- The C bubble sort agrees with the library sort: sorted permutations are
unique. -/
theorem bubbleSortTimes_eq_insertionSort (l : List ℚ) :
    bubbleSortTimes l = List.insertionSort (· ≤ ·) l :=
  List.eq_of_perm_of_sorted
    ((bubbleSortTimes_perm l).trans (List.perm_insertionSort (· ≤ ·) l).symm)
    (bubbleSortTimes_sorted l) (List.sorted_insertionSort (· ≤ ·) l)

/-! ### Pointwise characterizations, the accumulator, and the helpers for
the claim theorems -/

theorem sequentialList_getD (L : ℕ) (f₀ : ℕ → ℕ) (i : ℕ) (hi : i < L) :
    (sequentialList L f₀).getD i 0 = i * 8 := by
  unfold sequentialList
  rw [readOut_getD _ _ _ hi]
  exact foldl_update_eval _ L f₀ i hi

theorem backwardList_getD (L : ℕ) (f₀ : ℕ → ℕ) (i : ℕ) (hi : i < L) :
    (backwardList L f₀).getD i 0 = (L - 1 - i) * 8 := by
  unfold backwardList
  rw [readOut_getD _ _ _ hi]
  exact foldl_update_eval _ L f₀ i hi

theorem bouncingList_getD (L : ℕ) (f₀ : ℕ → ℕ) (i : ℕ) (hi : i < L) :
    (bouncingList L f₀).getD i 0 =
      if i % 2 = 0 then (i / 2) * 8 else (L - 1 - i / 2) * 8 := by
  unfold bouncingList
  rw [readOut_getD _ _ _ hi]
  exact foldl_update_eval _ L f₀ i hi

theorem interleavedList_getD (L : ℕ) (f₀ : ℕ → ℕ) (k : ℕ) (hL : 2 ∣ L) (hk : k < L) :
    (interleavedList L f₀).getD k 0 =
      if k % 2 = 0 then (k / 2) * 8 else (L / 2 + k / 2) * 8 := by
  unfold interleavedList
  rw [readOut_getD _ _ _ hk]
  exact foldl_update2_eval _ _ (L / 2) f₀ k (by omega)

theorem interleavedList_getD_even (L : ℕ) (f₀ : ℕ → ℕ) (i : ℕ) (hL : 2 ∣ L)
    (hi : i < L / 2) :
    (interleavedList L f₀).getD (2 * i) 0 = i * 8 := by
  rw [interleavedList_getD L f₀ (2 * i) hL (by omega), if_pos (by omega)]
  omega

theorem interleavedList_getD_odd (L : ℕ) (f₀ : ℕ → ℕ) (i : ℕ) (hL : 2 ∣ L)
    (hi : i < L / 2) :
    (interleavedList L f₀).getD (2 * i + 1) 0 = (L / 2 + i) * 8 := by
  rw [interleavedList_getD L f₀ (2 * i + 1) hL (by omega), if_neg (by omega)]
  omega

/-- Wrap-around `uint64_t` accumulation never actually wraps while the running
total stays below `2 ^ 64`. -/
theorem foldl_mod_eq_sum (arrA : ℕ → ℕ) :
    ∀ (idx : List ℕ) (s : ℕ), s + (idx.map arrA).sum < UINT64_MOD →
      idx.foldl (fun s j => (s + arrA j) % UINT64_MOD) s = s + (idx.map arrA).sum := by
  intro idx
  induction idx with
  | nil => intro s _; simp
  | cons j t ih =>
    intro s hs
    rw [List.map_cons, List.sum_cons] at hs
    rw [List.foldl_cons, Nat.mod_eq_of_lt (by omega), ih (s + arrA j) (by omega)]
    rw [List.map_cons, List.sum_cons]
    omega

/-- A permutation of the canonical offsets at the program constants has all
the properties the spec lists. -/
theorem isCanonicalPerm_of_perm (l : List ℕ)
    (h : l.Perm (canonicalOffsets seqLen)) : isCanonicalPerm l := by
  refine ⟨?_, h, ?_, ?_⟩
  · rw [h.length_eq]
    simp [canonicalOffsets, seqLen_eq]
  · exact h.nodup_iff.mpr (canonicalOffsets_nodup seqLen)
  · intro v hv
    have hv' := (mem_canonicalOffsets seqLen v).mp (h.subset hv)
    obtain ⟨m, hm, rfl⟩ := hv'
    have h1 := seqLen_eq
    have h2 := ARRAY_SIZE_eq
    constructor
    · omega
    · omega

theorem two_dvd_seqLen : 2 ∣ seqLen := by decide

/-! ### The claims -/

/-- C1: every one of the five pattern generators (Sequential, Backward,
Interleaved, Bouncing, Random) produces an IndexSequence of length exactly
N/8 = 524288 that is a permutation of the fixed set {0, 8, 16, ..., N-8}:
all values distinct, each a multiple of 8, each below N = 4194304 — for any
initial contents `f₀` of the `indices` array and any PRNG stream `rnd`. -/
theorem c1_all_patterns_canonical_perm (f₀ rnd : ℕ → ℕ) :
    isCanonicalPerm (sequentialList seqLen f₀) ∧
    isCanonicalPerm (backwardList seqLen f₀) ∧
    isCanonicalPerm (interleavedList seqLen f₀) ∧
    isCanonicalPerm (bouncingList seqLen f₀) ∧
    isCanonicalPerm (randomList rnd seqLen f₀) :=
  ⟨isCanonicalPerm_of_perm _ (sequentialList_perm seqLen f₀),
   isCanonicalPerm_of_perm _ (backwardList_perm seqLen f₀),
   isCanonicalPerm_of_perm _ (interleavedList_perm seqLen f₀ two_dvd_seqLen),
   isCanonicalPerm_of_perm _ (bouncingList_perm seqLen f₀ two_dvd_seqLen),
   isCanonicalPerm_of_perm _ (randomList_perm rnd seqLen f₀)⟩

/-- C2: the per-pattern statistic is computed by sorting the timing samples
ascending (the C bubble sort indeed sorts: it yields the ascending-sorted
permutation of its input, hence coincides with the library sort) and taking
the element at index NUM_ITERATIONS/2 = 5, the 6th smallest of 10; for the
samples [5,1,4,2,8,9,3,7,6,0] the returned value is 5. -/
theorem c2_median_upper_middle :
    (∀ times : List ℚ,
      List.Sorted (· ≤ ·) (bubbleSortTimes times) ∧ (bubbleSortTimes times).Perm times) ∧
    (∀ times : List ℚ, times.length = 10 →
      medianOfTimes times = (List.insertionSort (· ≤ ·) times).getD 5 0) ∧
    medianOfTimes [5, 1, 4, 2, 8, 9, 3, 7, 6, 0] = 5 := by
  refine ⟨fun times => ⟨bubbleSortTimes_sorted times, bubbleSortTimes_perm times⟩,
    fun times _ => ?_, by decide⟩
  unfold medianOfTimes
  rw [bubbleSortTimes_eq_insertionSort]
  rfl

theorem c2_witness :
    ([5, 1, 4, 2, 8, 9, 3, 7, 6, 0] : List ℚ).length = 10 ∧
    medianOfTimes [5, 1, 4, 2, 8, 9, 3, 7, 6, 0]
      = (List.insertionSort (· ≤ ·) [5, 1, 4, 2, 8, 9, 3, 7, 6, 0]).getD 5 0 :=
  ⟨rfl, c2_median_upper_middle.2.1 _ rfl⟩

/-- C3: the Random generator is deterministic given the PRNG stream fixed by
the seed: two generations with identical stream and identical length produce
identical index sequences; and the sequence is exactly the Sequential
sequence shuffled by the spec's list-level Fisher-Yates driven by that
stream. -/
theorem c3_random_deterministic (r₁ r₂ f₀ : ℕ → ℕ) (L₁ L₂ : ℕ)
    (hr : r₁ = r₂) (hL : L₁ = L₂) :
    randomList r₁ L₁ f₀ = randomList r₂ L₂ f₀ ∧
    randomList r₁ L₁ f₀ = listFisherYates r₁ (sequentialList L₁ f₀) := by
  subst hr
  subst hL
  exact ⟨rfl, randomList_eq_listFisherYates r₁ L₁ f₀⟩

theorem c3_witness :
    randomList (fun t => t + 3) 8 (fun _ => 0)
      = randomList (fun t => t + 3) 8 (fun _ => 0) ∧
    randomList (fun t => t + 3) 8 (fun _ => 0)
      = listFisherYates (fun t => t + 3) (sequentialList 8 (fun _ => 0)) :=
  c3_random_deterministic _ _ _ 8 8 rfl rfl

/-- C4 counterexample: `get_time` on the POSIX branch returns
`gettimeofday`, i.e. calendar time; when the wall clock is stepped backward
between two calls, the later call returns a strictly smaller value, so the
claim that the returned timestamp is monotonically non-decreasing and
unaffected by wall-clock adjustments is false of this code. -/
theorem c4_counterexample :
    (0 : ℕ) ≤ 1 ∧ get_time adjustedClock 1 < get_time adjustedClock 0 := by
  constructor
  · decide
  · norm_num [get_time, adjustedClock]

/-- C4 (amended): `get_time` returns the wall clock (calendar time) read by
`gettimeofday`, converted to seconds; its values are non-decreasing provided
the underlying wall clock never steps backward between calls, but they are
not insulated from wall-clock adjustments (no monotonic counter is used on
the POSIX branch). -/
theorem c4_amended_monotone (wallClock : ℕ → Timeval)
    (hmono : ∀ s t : ℕ, s ≤ t →
      (wallClock s).tv_sec * 1000000 + (wallClock s).tv_usec ≤
        (wallClock t).tv_sec * 1000000 + (wallClock t).tv_usec) :
    ∀ s t : ℕ, s ≤ t → get_time wallClock s ≤ get_time wallClock t := by
  intro s t hst
  have h := hmono s t hst
  have hq : ((wallClock s).tv_sec * 1000000 + (wallClock s).tv_usec : ℚ)
      ≤ ((wallClock t).tv_sec * 1000000 + (wallClock t).tv_usec : ℚ) := by
    exact_mod_cast h
  unfold get_time
  linarith

theorem c4_amended_witness :
    (0 : ℕ) ≤ 1 ∧ get_time steadyClock 0 ≤ get_time steadyClock 1 :=
  ⟨by decide,
    c4_amended_monotone steadyClock
      (fun s t hst => by simp only [steadyClock]; omega) 0 1 (by decide)⟩

/-- C5: Sequential produces the strictly increasing sequence
`offset[i] = i*8`, Backward the strictly decreasing sequence
`offset[i] = (L-1-i)*8`, and the two are reverses of each other, pointwise
and as lists. -/
theorem c5_sequential_backward_reverse (f₀ : ℕ → ℕ) :
    (∀ i, i < seqLen → (sequentialList seqLen f₀).getD i 0 = i * 8) ∧
    (∀ i, i < seqLen →
      (backwardList seqLen f₀).getD i 0 = (seqLen - 1 - i) * 8) ∧
    (∀ i j, i < j → j < seqLen →
      (sequentialList seqLen f₀).getD i 0 < (sequentialList seqLen f₀).getD j 0) ∧
    (∀ i j, i < j → j < seqLen →
      (backwardList seqLen f₀).getD j 0 < (backwardList seqLen f₀).getD i 0) ∧
    (∀ i, i < seqLen →
      (backwardList seqLen f₀).getD i 0
        = (sequentialList seqLen f₀).getD (seqLen - 1 - i) 0) ∧
    backwardList seqLen f₀ = (sequentialList seqLen f₀).reverse := by
  refine ⟨fun i hi => sequentialList_getD _ _ i hi,
    fun i hi => backwardList_getD _ _ i hi, ?_, ?_, ?_, backwardList_eq_reverse _ _⟩
  · intro i j hij hj
    rw [sequentialList_getD _ _ i (by omega), sequentialList_getD _ _ j hj]
    omega
  · intro i j hij hj
    rw [backwardList_getD _ _ i (by omega), backwardList_getD _ _ j hj]
    omega
  · intro i hi
    rw [backwardList_getD _ _ i hi,
      sequentialList_getD _ _ (seqLen - 1 - i) (by omega)]

theorem c5_witness :
    ((0 : ℕ) < 1 ∧ 1 < seqLen) ∧
    (sequentialList seqLen (fun _ => 0)).getD 0 0
      < (sequentialList seqLen (fun _ => 0)).getD 1 0 :=
  ⟨⟨by decide, by decide⟩,
    (c5_sequential_backward_reverse (fun _ => 0)).2.2.1 0 1 (by decide) (by decide)⟩

/-- C6: the Interleaved generator satisfies `offset[2i] = i*8` and
`offset[2i+1] = (L/2 + i)*8` for every `i < L/2`; even positions lie strictly
below the half-boundary value `(L/2)*8` while odd positions lie at or above
it, and the even- and odd-position subsequences are each internally
ascending (hence span disjoint halves of the index space). -/
theorem c6_interleaved_halves (f₀ : ℕ → ℕ) :
    (∀ i, i < seqLen / 2 →
      (interleavedList seqLen f₀).getD (2 * i) 0 = i * 8 ∧
      (interleavedList seqLen f₀).getD (2 * i + 1) 0 = (seqLen / 2 + i) * 8 ∧
      (interleavedList seqLen f₀).getD (2 * i) 0 < (seqLen / 2) * 8 ∧
      (seqLen / 2) * 8 ≤ (interleavedList seqLen f₀).getD (2 * i + 1) 0) ∧
    (∀ i j, i < j → j < seqLen / 2 →
      (interleavedList seqLen f₀).getD (2 * i) 0
        < (interleavedList seqLen f₀).getD (2 * j) 0 ∧
      (interleavedList seqLen f₀).getD (2 * i + 1) 0
        < (interleavedList seqLen f₀).getD (2 * j + 1) 0) := by
  have hdvd := two_dvd_seqLen
  constructor
  · intro i hi
    rw [interleavedList_getD_even seqLen f₀ i hdvd hi,
      interleavedList_getD_odd seqLen f₀ i hdvd hi]
    refine ⟨rfl, rfl, by omega, by omega⟩
  · intro i j hij hj
    rw [interleavedList_getD_even seqLen f₀ i hdvd (by omega),
      interleavedList_getD_odd seqLen f₀ i hdvd (by omega),
      interleavedList_getD_even seqLen f₀ j hdvd hj,
      interleavedList_getD_odd seqLen f₀ j hdvd hj]
    exact ⟨by omega, by omega⟩

theorem c6_witness :
    ((0 : ℕ) < 1 ∧ 1 < seqLen / 2) ∧
    (interleavedList seqLen (fun _ => 0)).getD 0 0
      < (interleavedList seqLen (fun _ => 0)).getD 2 0 :=
  ⟨⟨by decide, by decide⟩, by
    have h := ((c6_interleaved_halves (fun _ => 0)).2 0 1 (by decide) (by decide)).1
    simpa using h⟩

/-- C7: the Bouncing generator satisfies `offset[i] = (i/2)*8` for even `i`
and `offset[i] = (L-1-i/2)*8` for odd `i`; in particular `offset[0] = 0` and
`offset[1] = (L-1)*8`; the even-position subsequence increases monotonically
from the low end and the odd-position subsequence decreases monotonically
from the high end. -/
theorem c7_bouncing_ends_to_middle (f₀ : ℕ → ℕ) :
    (∀ i, i < seqLen →
      (bouncingList seqLen f₀).getD i 0 =
        if i % 2 = 0 then (i / 2) * 8 else (seqLen - 1 - i / 2) * 8) ∧
    (bouncingList seqLen f₀).getD 0 0 = 0 ∧
    (bouncingList seqLen f₀).getD 1 0 = (seqLen - 1) * 8 ∧
    (∀ i j, i < j → 2 * j < seqLen →
      (bouncingList seqLen f₀).getD (2 * i) 0
        < (bouncingList seqLen f₀).getD (2 * j) 0) ∧
    (∀ i j, i < j → 2 * j + 1 < seqLen →
      (bouncingList seqLen f₀).getD (2 * j + 1) 0
        < (bouncingList seqLen f₀).getD (2 * i + 1) 0) := by
  refine ⟨fun i hi => bouncingList_getD seqLen f₀ i hi, ?_, ?_, ?_, ?_⟩
  · rw [bouncingList_getD seqLen f₀ 0 (by decide)]
    rfl
  · rw [bouncingList_getD seqLen f₀ 1 (by decide)]
    rfl
  · intro i j hij hj
    rw [bouncingList_getD seqLen f₀ (2 * i) (by omega),
      bouncingList_getD seqLen f₀ (2 * j) (by omega),
      if_pos (by omega), if_pos (by omega)]
    omega
  · intro i j hij hj
    rw [bouncingList_getD seqLen f₀ (2 * i + 1) (by omega),
      bouncingList_getD seqLen f₀ (2 * j + 1) (by omega),
      if_neg (by omega), if_neg (by omega)]
    omega

theorem c7_witness :
    ((0 : ℕ) < 1 ∧ 2 * 1 < seqLen) ∧
    (bouncingList seqLen (fun _ => 0)).getD 0 0
      < (bouncingList seqLen (fun _ => 0)).getD 2 0 :=
  ⟨⟨by decide, by decide⟩, by
    have h := (c7_bouncing_ends_to_middle (fun _ => 0)).2.2.2.1 0 1 (by decide) (by decide)
    simpa using h⟩

/-- C8: one full pass of the 64-bit read-sum accumulator over any index list
of at most L = 524288 entries of 32-bit values never wraps, so it computes
the exact mathematical sum; over the Sequential index sequence it equals the
independently computed reference sum of every 8th record's field `a`. -/
theorem c8_accumulator_exact (arrA : ℕ → ℕ) (idx : List ℕ) (f₀ : ℕ → ℕ)
    (h32 : ∀ k, arrA k < 2 ^ 32) (hlen : idx.length ≤ 524288) :
    readSumLoop arrA idx = (idx.map arrA).sum ∧
    readSumLoop arrA (sequentialList seqLen f₀) = referenceSum arrA seqLen := by
  have key : ∀ l : List ℕ, l.length ≤ 524288 →
      readSumLoop arrA l = (l.map arrA).sum := by
    intro l hl
    have hsum : (l.map arrA).sum ≤ l.length * (2 ^ 32 - 1) := by
      have := List.sum_le_card_nsmul (l.map arrA) (2 ^ 32 - 1) ?_
      · simpa [smul_eq_mul] using this
      · intro x hx
        obtain ⟨k, _, rfl⟩ := List.mem_map.mp hx
        have := h32 k
        omega
    have hmul : l.length * (2 ^ 32 - 1) ≤ 524288 * (2 ^ 32 - 1) :=
      Nat.mul_le_mul_right _ hl
    have hbig : (524288 : ℕ) * (2 ^ 32 - 1) < 2 ^ 64 := by norm_num
    have hok : 0 + (l.map arrA).sum < UINT64_MOD := by
      unfold UINT64_MOD
      omega
    simpa using foldl_mod_eq_sum arrA l 0 hok
  refine ⟨key idx hlen, ?_⟩
  rw [key (sequentialList seqLen f₀) (by rw [sequentialList_length, seqLen_eq])]
  rw [sequentialList_eq_canonical]
  unfold canonicalOffsets referenceSum
  rw [List.map_map]
  rfl

theorem c8_witness :
    ((∀ k : ℕ, (fun _ => (0 : ℕ)) k < 2 ^ 32) ∧ ([] : List ℕ).length ≤ 524288) ∧
    readSumLoop (fun _ => 0) ([] : List ℕ) = (([] : List ℕ).map (fun _ => 0)).sum :=
  ⟨⟨fun _ => show (0 : ℕ) < 2 ^ 32 by decide, by decide⟩,
    (c8_accumulator_exact (fun _ => 0) [] (fun _ => 0)
      (fun _ => show (0 : ℕ) < 2 ^ 32 by decide) (by decide)).1⟩

/-- C9: if either allocation fails, `main` writes the failure message to
standard error and exits with status 1 without running any benchmark; if
both succeed, all five benchmarks run (each a total function in this
embedding), nothing goes to standard error, and `main` exits with status
0. -/
theorem c9_alloc_control_flow (arrAlloc idxAlloc : Bool) :
    (arrAlloc = false ∨ idxAlloc = false →
      (mainModel arrAlloc idxAlloc).exitCode = 1 ∧
      (mainModel arrAlloc idxAlloc).benchmarksRun = [] ∧
      (mainModel arrAlloc idxAlloc).stderrLines = ["Memory allocation failed"]) ∧
    (arrAlloc = true → idxAlloc = true →
      (mainModel arrAlloc idxAlloc).exitCode = 0 ∧
      (mainModel arrAlloc idxAlloc).stderrLines = [] ∧
      (mainModel arrAlloc idxAlloc).benchmarksRun =
        ["Sequential", "Backward", "Interleaved", "Bouncing", "Random"]) := by
  cases arrAlloc <;> cases idxAlloc <;> simp [mainModel]

theorem c9_witness :
    (mainModel false true).exitCode = 1 ∧ (mainModel true true).exitCode = 0 :=
  ⟨((c9_alloc_control_flow false true).1 (Or.inl rfl)).1,
    ((c9_alloc_control_flow true true).2 rfl rfl).1⟩

/-- C10: after the one-time seeded initialization, the data buffer is never
mutated: each `benchmark_pattern` call (generator, warmup passes, timed
passes, reporting) returns a state whose `arr` is unchanged, and the final
state after all five patterns still holds exactly the initialized records
(only the `indices` storage is rewritten). -/
theorem c10_buffer_never_mutated (rnd rndInit : ℕ → ℕ) (clock : ℕ → ℚ)
    (st : BenchState) (hinit : st.arr = initArr rndInit) :
    (∀ gen : (ℕ → ℕ) → ℕ → ℕ,
      (benchmark_pattern gen clock st).state.arr = st.arr) ∧
    (runAllPatterns rnd clock st).arr = initArr rndInit := by
  have hbp : ∀ (gen : (ℕ → ℕ) → ℕ → ℕ) (st' : BenchState),
      (benchmark_pattern gen clock st').state.arr = st'.arr := by
    intro gen st'
    simp [benchmark_pattern]
  refine ⟨fun gen => hbp gen st, ?_⟩
  unfold runAllPatterns
  rw [hbp, hbp, hbp, hbp, hbp, hinit]

theorem c10_witness :
    (⟨initArr (fun _ => 0), fun _ => 0⟩ : BenchState).arr = initArr (fun _ => 0) ∧
    (runAllPatterns (fun _ => 0) (fun _ => 0)
        ⟨initArr (fun _ => 0), fun _ => 0⟩).arr = initArr (fun _ => 0) :=
  ⟨rfl,
    (c10_buffer_never_mutated (fun _ => 0) (fun _ => 0) (fun _ => 0)
      ⟨initArr (fun _ => 0), fun _ => 0⟩ rfl).2⟩

end MemBench
